import Mathlib

/-!
Verification development for the asset synchronization and invalidation
planning engine of `src/pkg/platform/src/components/aws/static-site.ts`.

The engine is embedded shallowly: the relevant functions of the source
(`uploadAssets`, `getContentType`, `buildApp`'s output-path validation and
`createDistributionInvalidation`) become Lean functions over an explicit
model of the enumerated build-output tree.  External library capabilities
are modelled at their interface:

* glob patterns (the `glob` package) are modelled as the decidable
  predicates on relative paths that they denote; the two built-in patterns
  are spelled out concretely;
* `fs` reads are modelled by an `Option` of the file's bytes (`none` models
  a failing read), and the tree carries the order in which the glob library
  enumerates it;
* the `crypto` digests MD5 and SHA-256 are implemented bit-faithfully over
  byte lists (32-bit words are `Nat`s reduced mod 2^32).
-/

namespace StaticSite

/-- A sequence of bytes; each entry is taken modulo 256. -/
abbrev Bytes := List Nat

/-- Truncate a natural number to a 32-bit word. -/
def w32 (x : Nat) : Nat := x % 4294967296

/-- 32-bit modular addition. -/
def add32 (a b : Nat) : Nat := w32 (a + b)

/-- 32-bit left rotation; the argument is assumed already reduced mod 2^32. -/
def rotl32 (x n : Nat) : Nat := (w32 (x <<< n)).lor (x >>> (32 - n))

/-- 32-bit right rotation; the argument is assumed already reduced mod 2^32. -/
def rotr32 (x n : Nat) : Nat := (w32 (x <<< (32 - n))).lor (x >>> n)

/-- 32-bit bitwise complement of a word already reduced mod 2^32. -/
def not32 (x : Nat) : Nat := 4294967295 - x

/-- 32-bit bitwise exclusive or. -/
def xor32 (a b : Nat) : Nat := a.xor b

/-- Split a list into chunks of `n` elements, with explicit fuel (callers pass
the list's length, which suffices whenever `n > 0`). -/
def chunksAux (n : Nat) : Nat → List α → List (List α)
  | 0, _ => []
  | _, [] => []
  | fuel + 1, l => l.take n :: chunksAux n fuel (l.drop n)

/-- Interpret up to four bytes as a little-endian 32-bit word. -/
def leWord (bs : Bytes) : Nat :=
  bs.foldr (fun b acc => acc * 256 + b % 256) 0

/-- Interpret bytes as a big-endian word. -/
def beWord (bs : Bytes) : Nat :=
  bs.foldl (fun acc b => acc * 256 + b % 256) 0

/-- The `k` little-endian bytes of `x`. -/
def leBytes (k x : Nat) : Bytes :=
  (List.range k).map (fun i => (x >>> (8 * i)) % 256)

/-- The `k` big-endian bytes of `x`. -/
def beBytes (k x : Nat) : Bytes :=
  (List.range k).map (fun i => (x >>> (8 * (k - 1 - i))) % 256)

/-- Lowercase hexadecimal digit. -/
def hexDigit (n : Nat) : Char :=
  (String.toList ("0123456789abcdef")).getD n ('0')

/-- Two lowercase hex digits of a byte. -/
def hexByte (b : Nat) : String :=
  String.mk [hexDigit ((b % 256) / 16), hexDigit (b % 16)]

/-- Lowercase hex encoding of a byte sequence. -/
def hexOfBytes (bs : Bytes) : String := String.join (bs.map hexByte)

/-- Merkle–Damgård padding shared by MD5 and SHA-256: append `0x80`, zeros up
to 56 mod 64, then the 8-byte bit length (little-endian for MD5). -/
def mdPadLE (msg : Bytes) : Bytes :=
  let len := msg.length
  let zeros := (56 + 64 - ((len + 1) % 64)) % 64
  msg ++ [128] ++ List.replicate zeros 0 ++ leBytes 8 (len * 8)

/-- Padding for SHA-256: as `mdPadLE` but with a big-endian bit length. -/
def mdPadBE (msg : Bytes) : Bytes :=
  let len := msg.length
  let zeros := (56 + 64 - ((len + 1) % 64)) % 64
  msg ++ [128] ++ List.replicate zeros 0 ++ beBytes 8 (len * 8)

/-- MD5 per-round left-rotation amounts (RFC 1321). -/
def md5S : List Nat :=
  [7, 12, 17, 22, 7, 12, 17, 22, 7, 12, 17, 22, 7, 12, 17, 22,
   5, 9, 14, 20, 5, 9, 14, 20, 5, 9, 14, 20, 5, 9, 14, 20,
   4, 11, 16, 23, 4, 11, 16, 23, 4, 11, 16, 23, 4, 11, 16, 23,
   6, 10, 15, 21, 6, 10, 15, 21, 6, 10, 15, 21, 6, 10, 15, 21]

/-- MD5 sine-derived constants (RFC 1321), written in decimal. -/
def md5K : List Nat :=
  [3614090360, 3905402710, 606105819, 3250441966,
   4118548399, 1200080426, 2821735955, 4249261313,
   1770035416, 2336552879, 4294925233, 2304563134,
   1804603682, 4254626195, 2792965006, 1236535329,
   4129170786, 3225465664, 643717713, 3921069994,
   3593408605, 38016083, 3634488961, 3889429448,
   568446438, 3275163606, 4107603335, 1163531501,
   2850285829, 4243563512, 1735328473, 2368359562,
   4294588738, 2272392833, 1839030562, 4259657740,
   2763975236, 1272893353, 4139469664, 3200236656,
   681279174, 3936430074, 3572445317, 76029189,
   3654602809, 3873151461, 530742520, 3299628645,
   4096336452, 1126891415, 2878612391, 4237533241,
   1700485571, 2399980690, 4293915773, 2240044497,
   1873313359, 4264355552, 2734768916, 1309151649,
   4149444226, 3174756917, 718787259, 3951481745]

/-- MD5 round function, selected by the step index. -/
def md5F (i b c d : Nat) : Nat :=
  if i < 16 then (b.land c).lor ((not32 b).land d)
  else if i < 32 then (d.land b).lor ((not32 d).land c)
  else if i < 48 then xor32 (xor32 b c) d
  else xor32 c (b.lor (not32 d))

/-- MD5 message-word index for a step. -/
def md5G (i : Nat) : Nat :=
  if i < 16 then i
  else if i < 32 then (5 * i + 1) % 16
  else if i < 48 then (3 * i + 5) % 16
  else (7 * i) % 16

/-- One MD5 step on the running state `(a, b, c, d)`. -/
def md5Step (m : List Nat) (st : Nat × Nat × Nat × Nat) (i : Nat) :
    Nat × Nat × Nat × Nat :=
  match st with
  | (a, b, c, d) =>
    let f := md5F i b c d
    let rot := rotl32
      (add32 (add32 a f) (add32 (md5K.getD i 0) (m.getD (md5G i) 0)))
      (md5S.getD i 0)
    (d, add32 b rot, b, c)

/-- Process one 64-byte MD5 block. -/
def md5Block (st : Nat × Nat × Nat × Nat) (block : Bytes) :
    Nat × Nat × Nat × Nat :=
  let m := (chunksAux 4 block.length block).map leWord
  match st, (List.range 64).foldl (md5Step m) st with
  | (a0, b0, c0, d0), (a, b, c, d) =>
    (add32 a0 a, add32 b0 b, add32 c0 c, add32 d0 d)

/-- Hex-encoded MD5 digest of a byte sequence (as Node `crypto`'s
`createHash("md5").digest("hex")`). -/
def md5Hex (msg : Bytes) : String :=
  let padded := mdPadLE msg
  match (chunksAux 64 padded.length padded).foldl md5Block
      (1732584193, 4023233417, 2562383102, 271733878) with
  | (a, b, c, d) =>
    hexOfBytes (leBytes 4 a ++ leBytes 4 b ++ leBytes 4 c ++ leBytes 4 d)

/-- SHA-256 round constants (FIPS 180-4), written in decimal. -/
def sha256K : List Nat :=
  [1116352408, 1899447441, 3049323471, 3921009573,
   961987163, 1508970993, 2453635748, 2870763221,
   3624381080, 310598401, 607225278, 1426881987,
   1925078388, 2162078206, 2614888103, 3248222580,
   3835390401, 4022224774, 264347078, 604807628,
   770255983, 1249150122, 1555081692, 1996064986,
   2554220882, 2821834349, 2952996808, 3210313671,
   3336571891, 3584528711, 113926993, 338241895,
   666307205, 773529912, 1294757372, 1396182291,
   1695183700, 1986661051, 2177026350, 2456956037,
   2730485921, 2820302411, 3259730800, 3345764771,
   3516065817, 3600352804, 4094571909, 275423344,
   430227734, 506948616, 659060556, 883997877,
   958139571, 1322822218, 1537002063, 1747873779,
   1955562222, 2024104815, 2227730452, 2361852424,
   2428436474, 2756734187, 3204031479, 3329325298]

/-- Extend the SHA-256 message schedule by the word at index `i`. -/
def sha256Extend (w : List Nat) (i : Nat) : List Nat :=
  let x := w.getD (i - 15) 0
  let y := w.getD (i - 2) 0
  let s0 := xor32 (xor32 (rotr32 x 7) (rotr32 x 18)) (x >>> 3)
  let s1 := xor32 (xor32 (rotr32 y 17) (rotr32 y 19)) (y >>> 10)
  w ++ [add32 (add32 (w.getD (i - 16) 0) s0) (add32 (w.getD (i - 7) 0) s1)]

/-- The 64-word SHA-256 message schedule of a block's 16 words. -/
def sha256Sched (m : List Nat) : List Nat :=
  (List.range 64).foldl (fun w i => if i < 16 then w else sha256Extend w i) m

/-- The eight 32-bit working variables of SHA-256. -/
structure Sha256State where
  a : Nat
  b : Nat
  c : Nat
  d : Nat
  e : Nat
  f : Nat
  g : Nat
  h : Nat

/-- One SHA-256 compression round. -/
def sha256Round (w : List Nat) (st : Sha256State) (i : Nat) : Sha256State :=
  let s1 := xor32 (xor32 (rotr32 st.e 6) (rotr32 st.e 11)) (rotr32 st.e 25)
  let ch := xor32 (st.e.land st.f) ((not32 st.e).land st.g)
  let t1 := add32 (add32 st.h s1)
    (add32 ch (add32 (sha256K.getD i 0) (w.getD i 0)))
  let s0 := xor32 (xor32 (rotr32 st.a 2) (rotr32 st.a 13)) (rotr32 st.a 22)
  let maj := xor32 (xor32 (st.a.land st.b) (st.a.land st.c)) (st.b.land st.c)
  let t2 := add32 s0 maj
  { a := add32 t1 t2, b := st.a, c := st.b, d := st.c,
    e := add32 st.d t1, f := st.e, g := st.f, h := st.g }

/-- Process one 64-byte SHA-256 block. -/
def sha256Block (st : Sha256State) (block : Bytes) : Sha256State :=
  let m := (chunksAux 4 block.length block).map beWord
  let w := sha256Sched m
  let r := (List.range 64).foldl (sha256Round w) st
  { a := add32 st.a r.a, b := add32 st.b r.b, c := add32 st.c r.c,
    d := add32 st.d r.d, e := add32 st.e r.e, f := add32 st.f r.f,
    g := add32 st.g r.g, h := add32 st.h r.h }

/-- SHA-256 initial state (FIPS 180-4), written in decimal. -/
def sha256Init : Sha256State :=
  ⟨1779033703, 3144134277, 1013904242, 2773480762,
   1359893119, 2600822924, 528734635, 1541459225⟩

/-- Hex-encoded SHA-256 digest of a byte sequence (as Node `crypto`'s
`createHash("sha256").digest("hex")`). -/
def sha256Hex (msg : Bytes) : String :=
  let padded := mdPadBE msg
  let st := (chunksAux 64 padded.length padded).foldl sha256Block sha256Init
  hexOfBytes (beBytes 4 st.a ++ beBytes 4 st.b ++ beBytes 4 st.c ++
    beBytes 4 st.d ++ beBytes 4 st.e ++ beBytes 4 st.f ++
    beBytes 4 st.g ++ beBytes 4 st.h)

/-- Suffix test on strings by their character lists (the string comparison
the source performs with `String.prototype.endsWith`, and the denotation of
a glob suffix pattern). -/
def hasSuffix (s suffix : String) : Bool :=
  suffix.toList.isSuffixOf s.toList

/-- The final path component, as Node's `path.basename` on the relative
paths produced by glob (which contain no trailing slashes): the characters
after the last `/`. -/
def basename (p : String) : String :=
  String.mk ((p.toList.reverse.takeWhile (fun c => c != '/')).reverse)

/-- Node's `path.extname`: the substring of the basename from its last dot,
or the empty string when there is no dot or the only dot is the leading
character of the basename. -/
def extname (p : String) : String :=
  let cs := (basename p).toList
  let suffix := cs.reverse.takeWhile (fun c => c != '.')
  if suffix.length = cs.length then ""
  else if suffix.length + 1 = cs.length then ""
  else String.mk ('.' :: suffix.reverse)

/-- One row of the static extension table of `getContentType`
(lines 557-587 of the source). -/
structure MimeEntry where
  mime : String
  isText : Bool
deriving Repr, DecidableEq

/-- The static extension table of `getContentType`, verbatim from the
source. -/
def extensionsTable : List (String × MimeEntry) :=
  [(".txt", ⟨"text/plain", true⟩),
   (".htm", ⟨"text/html", true⟩),
   (".html", ⟨"text/html", true⟩),
   (".xhtml", ⟨"application/xhtml+xml", true⟩),
   (".css", ⟨"text/css", true⟩),
   (".js", ⟨"text/javascript", true⟩),
   (".mjs", ⟨"text/javascript", true⟩),
   (".apng", ⟨"image/apng", false⟩),
   (".avif", ⟨"image/avif", false⟩),
   (".gif", ⟨"image/gif", false⟩),
   (".jpeg", ⟨"image/jpeg", false⟩),
   (".jpg", ⟨"image/jpeg", false⟩),
   (".png", ⟨"image/png", false⟩),
   (".svg", ⟨"image/svg+xml", true⟩),
   (".bmp", ⟨"image/bmp", false⟩),
   (".tiff", ⟨"image/tiff", false⟩),
   (".webp", ⟨"image/webp", false⟩),
   (".ico", ⟨"image/vnd.microsoft.icon", false⟩),
   (".eot", ⟨"application/vnd.ms-fontobject", false⟩),
   (".ttf", ⟨"font/ttf", false⟩),
   (".otf", ⟨"font/otf", false⟩),
   (".woff", ⟨"font/woff", false⟩),
   (".woff2", ⟨"font/woff2", false⟩),
   (".json", ⟨"application/json", true⟩),
   (".jsonld", ⟨"application/ld+json", true⟩),
   (".xml", ⟨"application/xml", true⟩),
   (".pdf", ⟨"application/pdf", false⟩),
   (".zip", ⟨"application/zip", false⟩),
   (".wasm", ⟨"application/wasm", false⟩)]

/-- The extension used for the table lookup: the fixed special case for the
well-known site-association marker, else `path.extname` (lines 554-556). -/
def lookupExt (filename : String) : String :=
  if hasSuffix filename (".well-known/site-association-json") then ".json"
  else extname filename

/-- The table row for a filename, `none` for an unknown extension
(`extensionData` in the source, line 588). -/
def extensionData (filename : String) : Option MimeEntry :=
  (extensionsTable.find? (fun kv => kv.1 == lookupExt filename)).map
    (fun kv => kv.2)

/-- `getContentType` (lines 553-595): MIME type from the table with
`application/octet-stream` fallback, and a `;charset=` suffix exactly when
the entry is text-like and the `textEncoding` argument is not `"none"`
(an unknown extension yields no charset for any encoding, since
`extensionData?.isText` is then undefined, hence falsy). -/
def getContentType (filename : String) (textEncoding : String) : String :=
  let data := extensionData filename
  let mime := match data with
    | some d => d.mime
    | none => "application/octet-stream"
  let charset := match data with
    | some d =>
      if d.isText && textEncoding != "none" then ";charset=" ++ textEncoding
      else ""
    | none => ""
  mime ++ charset

/-- `FileOptions` (lines 23-41).  The `files` and `ignore` glob pattern sets
are modelled by the decidable predicates on relative paths that they denote,
since glob matching is an external library capability. -/
structure FileOptions where
  files : String → Bool
  ignore : String → Bool := fun _ => false
  cacheControl : Option String := none
  contentType : Option String := none

/-- A rule governs a path when some `files` pattern matches it and no
`ignore` pattern does (the `globSync` call of line 512 with its `ignore`
option). -/
def ruleMatches (fo : FileOptions) (p : String) : Bool :=
  fo.files p && !(fo.ignore p)

/-- The first built-in rule (lines 498-501): the pattern `**` with
`dot: true` matches every enumerated file, hidden files included. -/
def catchAllRule : FileOptions :=
  { files := fun _ => true,
    cacheControl := some ("max-age=0,no-cache,no-store,must-revalidate") }

/-- The second built-in rule (lines 502-505): the patterns `**/*.js` and
`**/*.css` with `dot: true` match exactly the paths with a `.js` or `.css`
suffix, at any depth. -/
def jsCssRule : FileOptions :=
  { files := fun p => hasSuffix p (".js") || hasSuffix p (".css"),
    cacheControl := some ("max-age=31536000,public,immutable") }

/-- The `assets` argument of the component (lines 147-182): a text encoding
and user file options, each optional. -/
structure AssetsArgs where
  textEncoding : Option String := none
  fileOptions : Option (List FileOptions) := none

/-- The user rules: `assets?.fileOptions ?? []` (line 506). -/
def userRulesOf : Option AssetsArgs → List FileOptions
  | some a => a.fileOptions.getD []
  | none => []

/-- The rulebook in declaration order (lines 497-507):
`[catchAll, jsCss, ...userRules]`. -/
def rulebook (assets : Option AssetsArgs) : List FileOptions :=
  [catchAllRule, jsCssRule] ++ userRulesOf assets

/-- The rule declared last among those matching `p`: the first match of the
reversed rulebook. -/
def lastMatch (rules : List FileOptions) (p : String) : Option FileOptions :=
  rules.reverse.find? (fun fo => ruleMatches fo p)

/-- One file of the build-output tree: its path relative to the output root,
the result of reading it (`none` models a failing `fs` read), and whether it
is reachable only through a symlinked directory (such files are enumerated
by glob only when its `follow` option is set). -/
structure FileEntry where
  path : String
  content : Option Bytes
  followOnly : Bool := false
deriving Repr, DecidableEq

/-- The build-output tree, in the order the glob library enumerates it. -/
abbrev Tree := List FileEntry

/-- Enumeration without `follow` (the `globSync` of `uploadAssets`,
lines 512-517): files behind symlinked directories are not listed. -/
def enumNoFollow (tree : Tree) : Tree :=
  tree.filter (fun e => !e.followOnly)

/-- Enumeration with `follow: true` (the `globSync` of
`createDistributionInvalidation`, lines 677-684): every file is listed. -/
def enumFollow (tree : Tree) : Tree := tree

/-- Whether every file of the tree is readable. -/
def readable (tree : Tree) : Bool :=
  tree.all (fun e => e.content.isSome)

/-- A `BucketFile` record of the sync plan (lines 528-534). -/
structure BucketFile where
  source : String
  key : String
  hash : String
  cacheControl : Option String
  contentType : String
deriving Repr, DecidableEq

/-- The record built for a classified file (lines 521-534): the SHA-256 of
its bytes, the matched rule's `cacheControl`, and a content type computed by
`getContentType(file, "UTF-8")` — the configured text encoding is not passed
(line 533), and the rule's own `contentType` field is not consulted.
`path.resolve(outputPath, file)` is modelled as concatenation. -/
def mkBucketFile (outputPath : String) (fo : FileOptions) (file : String)
    (content : Bytes) : BucketFile :=
  { source := outputPath ++ "/" ++ file,
    key := file,
    hash := sha256Hex content,
    cacheControl := fo.cacheControl,
    contentType := getContentType file ("UTF-8") }

/-- The files a rule claims in one pass (line 512-517): the enumerated files
matching the rule's patterns that no earlier-evaluated rule claimed. -/
def selectFiles (fo : FileOptions) (tree : Tree) (uploaded : List String) :
    Tree :=
  tree.filter (fun e => ruleMatches fo e.path && !(uploaded.contains e.path))

/-- Read and package one rule's files (the `Promise.all` of lines 520-536):
a single failing read fails the whole batch. -/
def readRecords (outputPath : String) (fo : FileOptions) :
    Tree → Except String (List BucketFile)
  | [] => .ok []
  | e :: rest =>
    match e.content with
    | none => .error ("ENOENT: no such file " ++ e.path)
    | some c =>
      match readRecords outputPath fo rest with
      | .error msg => .error msg
      | .ok rs => .ok (mkBucketFile outputPath fo e.path c :: rs)

/-- The classification loop of `uploadAssets` (lines 510-539), over rules
already placed in evaluation order: each rule claims the not-yet-uploaded
files it matches, their records are appended, and the claimed paths join
`filesUploaded`. -/
def processRules (outputPath : String) :
    List FileOptions → Tree → List String → Except String (List BucketFile)
  | [], _, _ => .ok []
  | fo :: rest, tree, uploaded =>
    let files := selectFiles fo tree uploaded
    match readRecords outputPath fo files with
    | .error msg => .error msg
    | .ok recs =>
      match processRules outputPath rest tree
          (uploaded ++ files.map (fun e => e.path)) with
      | .error msg => .error msg
      | .ok restRecs => .ok (recs ++ restRecs)

/-- `uploadAssets` (lines 491-551): build the rulebook, then run the
classification loop over `fileOptions.reverse()` on the no-follow
enumeration of the output tree, starting from an empty `filesUploaded`. -/
def uploadAssets (outputPath : String) (tree : Tree)
    (assets : Option AssetsArgs) : Except String (List BucketFile) :=
  processRules outputPath (rulebook assets).reverse (enumNoFollow tree) []

/-- The output-path validation of `buildApp` (lines 479-488) composed with
`uploadAssets`: a missing output tree root (`none`) aborts with an error
before any planning, modelling the thrown `VisibleError`. -/
def planPipeline (outputPath : String) (root : Option Tree)
    (assets : Option AssetsArgs) : Except String (List BucketFile) :=
  match root with
  | none => .error ("No build output found at " ++ outputPath)
  | some tree => uploadAssets outputPath tree assets

/-- The `paths` field of the invalidation argument: `"all"` or an explicit
glob list (lines 235). -/
inductive PathsArg where
  | all
  | list (ps : List String)
deriving Repr, DecidableEq

/-- The invalidation options object (lines 196-236), fields optional. -/
structure InvalidationArgs where
  wait : Option Bool := none
  paths : Option PathsArg := none
deriving Repr, DecidableEq

/-- The `invalidation` component argument: omitted entirely, the literal
`false`, or an options object (lines 194-237). -/
inductive InvalidationSetting where
  | omitted
  | disabled
  | config (c : InvalidationArgs)
deriving Repr, DecidableEq

/-- The options object an invalidation setting denotes after the spread
`{wait: false, paths: "all", ...invalidationRaw}` normalizes it:
`none` exactly for the literal `false`. -/
def settingArgs : InvalidationSetting → Option InvalidationArgs
  | .omitted => some {}
  | .disabled => none
  | .config c => some c

/-- The properties of the `DistributionInvalidation` resource
(lines 686-698). -/
structure InvalidationRequest where
  paths : List String
  version : String
  wait : Bool
deriving Repr, DecidableEq

/-- The sequential digest reads of lines 677-684: each enumerated file's
bytes are streamed into the running hash, so the digest input is their
concatenation; the first failing `readFileSync` aborts. -/
def readAll : Tree → Except String Bytes
  | [] => .ok []
  | e :: rest =>
    match e.content with
    | none => .error ("ENOENT: no such file " ++ e.path)
    | some c =>
      match readAll rest with
      | .error msg => .error msg
      | .ok bs => .ok (c ++ bs)

/-- The concatenated digest input of a fully readable tree. -/
def joinContents (tree : Tree) : Bytes :=
  (tree.map (fun e => e.content.getD [])).flatten

/-- `createDistributionInvalidation` (lines 654-701): return nothing for the
literal `false`; spread in the defaults `{wait: false, paths: "all"}`;
expand `"all"` to `["/*"]`; return nothing for an empty path list; otherwise
MD5 the follow-enumerated tree's bytes and build the request. -/
def createDistributionInvalidation (tree : Tree)
    (inv : InvalidationSetting) : Except String (Option InvalidationRequest) :=
  match settingArgs inv with
  | none => .ok none
  | some c =>
    let invalidationPaths := match c.paths.getD .all with
      | .all => ["/*"]
      | .list ps => ps
    if invalidationPaths.isEmpty then .ok none
    else
      match readAll (enumFollow tree) with
      | .error msg => .error msg
      | .ok bs =>
        .ok (some { paths := invalidationPaths, version := md5Hex bs,
                    wait := c.wait.getD false })

/-- User rules for the precedence example: rule A matches every `.txt`
file, rule B matches exactly `readme.txt`; B is declared last. -/
def c1UserRules : List FileOptions :=
  [{ files := (fun p => hasSuffix p (".txt")),
     cacheControl := some ("cc-user-a") },
   { files := (fun p => p == "readme.txt"),
     cacheControl := some ("cc-user-b") }]

/-- Assets configuration carrying the precedence example's user rules. -/
def c1Assets : Option AssetsArgs :=
  some { fileOptions := some c1UserRules }

/-- The file of the precedence example. -/
def c1Entry : FileEntry := ⟨"readme.txt", some [104, 105], false⟩

/-- A user rule with no `cacheControl`, matching every `.zip` file. -/
def c9UserRules : List FileOptions :=
  [{ files := (fun p => hasSuffix p (".zip")) }]

/-- Assets configuration carrying the no-cache-control user rule. -/
def c9Assets : Option AssetsArgs :=
  some { fileOptions := some c9UserRules }

/-- The file governed by the no-cache-control user rule. -/
def c9Entry : FileEntry := ⟨"bundle.zip", some [80], false⟩

/-- The records one rule produces for the files it claims, when every read
succeeds. -/
def recordsOf (outputPath : String) (fo : FileOptions) (files : Tree) :
    List BucketFile :=
  files.map (fun e => mkBucketFile outputPath fo e.path (e.content.getD []))

/-- The keys the classification loop emits, rule by rule in evaluation
order. -/
def keysSpec : List FileOptions → Tree → List String → List String
  | [], _, _ => []
  | fo :: rest, tree, up =>
    (selectFiles fo tree up).map (fun e => e.path) ++
      keysSpec rest tree (up ++ (selectFiles fo tree up).map (fun e => e.path))

/-- The plan the classification loop emits when every read succeeds. -/
def planSpec (outputPath : String) :
    List FileOptions → Tree → List String → List BucketFile
  | [], _, _ => []
  | fo :: rest, tree, up =>
    recordsOf outputPath fo (selectFiles fo tree up) ++
      planSpec outputPath rest tree
        (up ++ (selectFiles fo tree up).map (fun e => e.path))

theorem readRecords_ok (outputPath : String) (fo : FileOptions) (files : Tree)
    (h : ∀ e ∈ files, e.content.isSome) :
    readRecords outputPath fo files = .ok (recordsOf outputPath fo files) := by
  induction files with
  | nil => rfl
  | cons e rest ih =>
    have he := h e (by simp)
    obtain ⟨c, hc⟩ := Option.isSome_iff_exists.mp he
    have ihr := ih (fun x hx => h x (by simp [hx]))
    simp [readRecords, hc, ihr, recordsOf]

theorem contains_eq_false_iff (l : List String) (a : String) :
    l.contains a = false ↔ a ∉ l := by
  rw [show l.contains a = l.elem a from rfl, List.elem_eq_mem]
  simp

theorem readRecords_ok_isSome (outputPath : String) (fo : FileOptions)
    (files : Tree) (l : List BucketFile)
    (h : readRecords outputPath fo files = .ok l) :
    ∀ e ∈ files, e.content.isSome := by
  induction files generalizing l with
  | nil => simp
  | cons e rest ih =>
    intro x hx
    rcases hc : e.content with _ | c
    · rw [readRecords, hc] at h
      exact absurd h (by simp)
    · rw [readRecords, hc] at h
      rcases List.mem_cons.mp hx with rfl | hx
      · simp [hc]
      · rcases hrest : readRecords outputPath fo rest with msg | rs
        · rw [hrest] at h
          exact absurd h (by simp)
        · exact ih rs hrest x hx

theorem processRules_ok (outputPath : String) (ers : List FileOptions)
    (tree : Tree) (up : List String)
    (h : ∀ e ∈ tree, e.content.isSome) :
    processRules outputPath ers tree up =
      .ok (planSpec outputPath ers tree up) := by
  induction ers generalizing up with
  | nil => rfl
  | cons fo rest ih =>
    have hf : ∀ e ∈ selectFiles fo tree up, e.content.isSome :=
      fun e he => h e (List.mem_of_mem_filter he)
    simp [processRules, readRecords_ok _ _ _ hf, ih, planSpec]

theorem planSpec_keys (outputPath : String) (ers : List FileOptions)
    (tree : Tree) (up : List String) :
    (planSpec outputPath ers tree up).map (fun r => r.key) =
      keysSpec ers tree up := by
  induction ers generalizing up with
  | nil => rfl
  | cons fo rest ih =>
    simp only [planSpec, keysSpec, recordsOf, List.map_append, List.map_map, ih]
    rfl

theorem mem_selectKeys (fo : FileOptions) (tree : Tree) (up : List String)
    (p : String) :
    p ∈ (selectFiles fo tree up).map (fun e => e.path) ↔
      (∃ e ∈ tree, e.path = p) ∧ ruleMatches fo p = true ∧ p ∉ up := by
  simp only [selectFiles, List.mem_map, List.mem_filter, Bool.and_eq_true,
    Bool.not_eq_true']
  constructor
  · rintro ⟨e, ⟨he, hm, hc⟩, rfl⟩
    exact ⟨⟨e, he, rfl⟩, hm, (contains_eq_false_iff up e.path).mp hc⟩
  · rintro ⟨⟨e, he, rfl⟩, hm, hup⟩
    exact ⟨e, ⟨he, hm, (contains_eq_false_iff up e.path).mpr hup⟩, rfl⟩

theorem mem_keysSpec (ers : List FileOptions) (tree : Tree) (up : List String)
    (p : String) :
    p ∈ keysSpec ers tree up ↔
      ((∃ e ∈ tree, e.path = p) ∧ p ∉ up ∧
        ∃ fo ∈ ers, ruleMatches fo p = true) := by
  induction ers generalizing up with
  | nil => simp [keysSpec]
  | cons fo rest ih =>
    rw [keysSpec, List.mem_append, mem_selectKeys, ih]
    constructor
    · rintro (⟨hp, hm, hup⟩ | ⟨hp, hup, fo2, hfo2, hm2⟩)
      · exact ⟨hp, hup, fo, List.mem_cons_self _ _, hm⟩
      · exact ⟨hp, fun h => hup (List.mem_append_left _ h), fo2,
          List.mem_cons_of_mem _ hfo2, hm2⟩
    · rintro ⟨hp, hup, fo2, hfo2, hm2⟩
      rcases List.mem_cons.mp hfo2 with rfl | hfo2
      · exact Or.inl ⟨hp, hm2, hup⟩
      · by_cases hm : ruleMatches fo p = true
        · exact Or.inl ⟨hp, hm, hup⟩
        · refine Or.inr ⟨hp, ?_, fo2, hfo2, hm2⟩
          intro hmem
          rcases List.mem_append.mp hmem with h1 | h2
          · exact hup h1
          · exact hm ((mem_selectKeys fo tree up p).mp h2).2.1

theorem nodup_keysSpec (ers : List FileOptions) (tree : Tree)
    (up : List String) (hn : (tree.map (fun e => e.path)).Nodup) :
    (keysSpec ers tree up).Nodup := by
  induction ers generalizing up with
  | nil => simp [keysSpec]
  | cons fo rest ih =>
    refine List.Nodup.append ?_ (ih _) ?_
    · exact hn.sublist (List.Sublist.map _ (List.filter_sublist tree))
    · intro p hp hp2
      have h2 := (mem_keysSpec rest tree _ p).mp hp2
      exact h2.2.1 (List.mem_append_right _ hp)

theorem mem_planSpec (outputPath : String) (ers : List FileOptions)
    (tree : Tree) (up : List String) (r : BucketFile)
    (hr : r ∈ planSpec outputPath ers tree up) :
    r.key ∉ up ∧ ∃ fo, ers.find? (fun fo => ruleMatches fo r.key) = some fo ∧
      ∃ e ∈ tree, e.path = r.key ∧
        r = mkBucketFile outputPath fo e.path (e.content.getD []) := by
  induction ers generalizing up with
  | nil => simp [planSpec] at hr
  | cons fo rest ih =>
    simp only [planSpec, List.mem_append] at hr
    rcases hr with hr | hr
    · simp only [recordsOf, List.mem_map] at hr
      obtain ⟨e, he, rfl⟩ := hr
      rw [selectFiles, List.mem_filter, Bool.and_eq_true, Bool.not_eq_true',
        contains_eq_false_iff] at he
      obtain ⟨het, hm, hup⟩ := he
      have hkey : (mkBucketFile outputPath fo e.path (e.content.getD [])).key
          = e.path := rfl
      refine ⟨by rw [hkey]; exact hup, fo, ?_, e, het, hkey.symm, rfl⟩
      rw [hkey]
      exact List.find?_cons_of_pos _ hm
    · obtain ⟨hup, fo2, hfind, e, het, hpath, hrec⟩ := ih _ hr
      have hnotup : r.key ∉ up := fun h => hup (List.mem_append_left _ h)
      have hnm : ¬ (ruleMatches fo r.key = true) := by
        intro hm
        exact hup (List.mem_append_right _
          ((mem_selectKeys fo tree up r.key).mpr ⟨⟨e, het, hpath⟩, hm, hnotup⟩))
      refine ⟨hnotup, fo2, ?_, e, het, hpath, hrec⟩
      rw [List.find?_cons_of_neg _ (by simpa using hnm)]
      exact hfind

theorem processRules_ok_isSome (outputPath : String) (ers : List FileOptions)
    (tree : Tree) (up : List String) (plan : List BucketFile)
    (hn : (tree.map (fun e => e.path)).Nodup)
    (h : processRules outputPath ers tree up = .ok plan) :
    ∀ e ∈ tree, e.path ∉ up →
      (∃ fo ∈ ers, ruleMatches fo e.path = true) → e.content.isSome := by
  induction ers generalizing up plan with
  | nil => rintro e he hup ⟨fo, hfo, _⟩; simp at hfo
  | cons fo rest ih =>
    intro e he hup hmatch
    rcases hread : readRecords outputPath fo (selectFiles fo tree up)
        with msg | recs
    · rw [processRules, hread] at h
      exact absurd h (by simp)
    · rw [processRules, hread] at h
      rcases hrest : processRules outputPath rest tree
          (up ++ (selectFiles fo tree up).map (fun x => x.path))
          with msg | restRecs
      · rw [hrest] at h
        exact absurd h (by simp)
      · by_cases hsel : e ∈ selectFiles fo tree up
        · exact readRecords_ok_isSome _ _ _ _ hread e hsel
        · obtain ⟨fo2, hfo2, hm2⟩ := hmatch
          rcases List.mem_cons.mp hfo2 with rfl | hfo2
          · refine absurd ?_ hsel
            rw [selectFiles, List.mem_filter]
            refine ⟨he, ?_⟩
            rw [Bool.and_eq_true, Bool.not_eq_true', contains_eq_false_iff]
            exact ⟨hm2, hup⟩
          · refine ih _ _ hrest e he ?_ ⟨fo2, hfo2, hm2⟩
            intro hmem
            rcases List.mem_append.mp hmem with h1 | h2
            · exact hup h1
            · obtain ⟨e2, he2, hpe2⟩ := List.mem_map.mp h2
              have he2t := List.mem_of_mem_filter he2
              have : e2 = e := List.inj_on_of_nodup_map hn he2t he hpe2
              rw [this] at he2
              exact hsel he2

theorem readAll_ok (tree : Tree) (hr : readable tree = true) :
    readAll tree = .ok (joinContents tree) := by
  induction tree with
  | nil => rfl
  | cons e rest ih =>
    rw [readable, List.all_cons, Bool.and_eq_true] at hr
    obtain ⟨c, hc⟩ := Option.isSome_iff_exists.mp hr.1
    simp [readAll, hc, ih hr.2, joinContents]

theorem find?_decomp {α : Type} {p : α → Bool} {l : List α} {b : α}
    (h : l.find? p = some b) :
    ∃ pre post, l = pre ++ b :: post ∧ p b = true ∧
      ∀ a ∈ pre, p a = false := by
  induction l with
  | nil => simp at h
  | cons x xs ih =>
    by_cases hx : p x = true
    · rw [List.find?_cons_of_pos _ hx] at h
      obtain rfl : x = b := by injection h
      exact ⟨[], xs, rfl, hx, by simp⟩
    · rw [List.find?_cons_of_neg _ (by simpa using hx)] at h
      obtain ⟨pre, post, rfl, hb, hall⟩ := ih h
      refine ⟨x :: pre, post, rfl, hb, ?_⟩
      intro a ha
      rcases List.mem_cons.mp ha with rfl | ha
      · simpa using hx
      · exact hall a ha

theorem lastMatch_decomp {rules : List FileOptions} {p : String}
    {fo : FileOptions} (h : lastMatch rules p = some fo) :
    ∃ pre post, rules = pre ++ fo :: post ∧ ruleMatches fo p = true ∧
      ∀ fo2 ∈ post, ruleMatches fo2 p = false := by
  obtain ⟨pre, post, hdecomp, hb, hall⟩ := find?_decomp h
  refine ⟨post.reverse, pre.reverse, ?_, hb, ?_⟩
  · have := congrArg List.reverse hdecomp
    simpa [List.reverse_append] using this
  · intro fo2 hfo2
    exact hall fo2 (List.mem_reverse.mp hfo2)

theorem catchAll_matches (p : String) : ruleMatches catchAllRule p = true :=
  rfl

theorem catchAll_mem_rev (assets : Option AssetsArgs) :
    catchAllRule ∈ (rulebook assets).reverse :=
  List.mem_reverse.mpr (List.mem_cons_self _ _)

/-- C4: every file enumerated at the output tree root yields exactly one
record in the sync plan, keyed by its path relative to the root: the key
multiset of the plan has no duplicates (files already classified by an
earlier-evaluated rule are skipped) and contains a key exactly for the
enumerated files (the catch-all rule, `**` with `dot: true`, matches every
file, hidden files included, so none is omitted). -/
theorem c4_coverage (outputPath : String) (tree : Tree)
    (assets : Option AssetsArgs)
    (hr : readable (enumNoFollow tree) = true)
    (hn : ((enumNoFollow tree).map (fun e => e.path)).Nodup) :
    ∃ plan, uploadAssets outputPath tree assets = .ok plan ∧
      (plan.map (fun r => r.key)).Nodup ∧
      ∀ p, p ∈ plan.map (fun r => r.key) ↔
        p ∈ (enumNoFollow tree).map (fun e => e.path) := by
  have hexist : ∀ e ∈ enumNoFollow tree, e.content.isSome := by
    rw [readable, List.all_eq_true] at hr
    exact hr
  refine ⟨planSpec outputPath ((rulebook assets).reverse) (enumNoFollow tree)
      [], processRules_ok _ _ _ _ hexist, ?_, ?_⟩
  · rw [planSpec_keys]
    exact nodup_keysSpec _ _ _ hn
  · intro p
    rw [planSpec_keys, mem_keysSpec]
    constructor
    · rintro ⟨⟨e, he, rfl⟩, _, _⟩
      exact List.mem_map.mpr ⟨e, he, rfl⟩
    · intro hp
      obtain ⟨e, he, rfl⟩ := List.mem_map.mp hp
      exact ⟨⟨e, he, rfl⟩, by simp, catchAllRule, catchAll_mem_rev assets, rfl⟩

/-- C4 witness: the coverage theorem applied to the three-file example tree
with the default rulebook. -/
theorem c4_coverage_witness :
    ∃ plan, uploadAssets ("out")
      [⟨"index.html", some [60], false⟩, ⟨"app.js", some [1], false⟩,
       ⟨"logo.png", some [2], false⟩] none = .ok plan ∧
      (plan.map (fun r => r.key)).Nodup ∧
      ∀ p, p ∈ plan.map (fun r => r.key) ↔
        p ∈ (enumNoFollow
          [⟨"index.html", some [60], false⟩, ⟨"app.js", some [1], false⟩,
           ⟨"logo.png", some [2], false⟩]).map (fun e => e.path) :=
  c4_coverage ("out")
    [⟨"index.html", some [60], false⟩, ⟨"app.js", some [1], false⟩,
     ⟨"logo.png", some [2], false⟩] none (by decide) (by decide)

/-- C1: a file matched by two or more rules of the rulebook
`[catchAll, jsCss, ...userRules]` is assigned the rule declared last among
those that match: its record exists, its `cacheControl` is that rule's
`cacheControl` (so the last-declared user rule beats earlier user rules and
both built-ins, and the built-in JS/CSS rule beats only the catch-all,
which sits first), and its content type is the one `getContentType`
computes for the file under the assigned rule. -/
theorem c1_last_declared_rule_wins (outputPath : String) (tree : Tree)
    (assets : Option AssetsArgs) (f : FileEntry)
    (hr : readable (enumNoFollow tree) = true)
    (hn : ((enumNoFollow tree).map (fun e => e.path)).Nodup)
    (hf : f ∈ enumNoFollow tree)
    (hmulti : 2 ≤ ((rulebook assets).filter
      (fun fo => ruleMatches fo f.path)).length) :
    ∃ plan, uploadAssets outputPath tree assets = .ok plan ∧
      (∃ r ∈ plan, r.key = f.path) ∧
      ∀ r ∈ plan, r.key = f.path →
        ∃ fo pre post, rulebook assets = pre ++ fo :: post ∧
          ruleMatches fo f.path = true ∧
          (∀ fo2 ∈ post, ruleMatches fo2 f.path = false) ∧
          r.cacheControl = fo.cacheControl ∧
          r.contentType = getContentType f.path ("UTF-8") := by
  have hexist : ∀ e ∈ enumNoFollow tree, e.content.isSome := by
    rw [readable, List.all_eq_true] at hr
    exact hr
  refine ⟨planSpec outputPath ((rulebook assets).reverse) (enumNoFollow tree)
      [], processRules_ok _ _ _ _ hexist, ?_, ?_⟩
  · have hk : f.path ∈ (planSpec outputPath ((rulebook assets).reverse)
        (enumNoFollow tree) []).map (fun r => r.key) := by
      rw [planSpec_keys, mem_keysSpec]
      exact ⟨⟨f, hf, rfl⟩, by simp, catchAllRule, catchAll_mem_rev assets, rfl⟩
    obtain ⟨r, hrp, hrk⟩ := List.mem_map.mp hk
    exact ⟨r, hrp, hrk⟩
  · intro r hrp hrk
    obtain ⟨_, fo, hfind, e2, he2, hpath, hrec⟩ :=
      mem_planSpec outputPath _ _ _ r hrp
    rw [hrk] at hfind
    have hlast : lastMatch (rulebook assets) f.path = some fo := hfind
    obtain ⟨pre, post, hdec, hm, hpost⟩ := lastMatch_decomp hlast
    refine ⟨fo, pre, post, hdec, hm, hpost, ?_, ?_⟩
    · rw [hrec]
      rfl
    · rw [hrec, ← hrk, ← hpath]
      rfl

/-- C1 witness: with user rules A (every `.txt` file, cache-control
`cc-user-a`) and B (exactly `readme.txt`, cache-control `cc-user-b`),
the file `readme.txt` is matched by the catch-all, A and B, and its record
takes the rule declared last. -/
theorem c1_last_declared_rule_wins_witness :
    ∃ plan, uploadAssets ("out") [c1Entry] c1Assets = .ok plan ∧
      (∃ r ∈ plan, r.key = c1Entry.path) ∧
      ∀ r ∈ plan, r.key = c1Entry.path →
        ∃ fo pre post, rulebook c1Assets = pre ++ fo :: post ∧
          ruleMatches fo c1Entry.path = true ∧
          (∀ fo2 ∈ post, ruleMatches fo2 c1Entry.path = false) ∧
          r.cacheControl = fo.cacheControl ∧
          r.contentType = getContentType c1Entry.path ("UTF-8") :=
  c1_last_declared_rule_wins ("out") [c1Entry] c1Assets c1Entry
    (by decide) (by decide) (by decide) (by decide)

/-- C9: when the rule governing a file (the last-declared matching rule) has
no `cacheControl`, the file's record carries no `cacheControl` at all, even
though the built-in catch-all — which always matches and always carries a
`cacheControl` — also matches the file: the user rule shadows the built-ins
rather than letting the file inherit their cache-control.  (Both built-ins
carry a `cacheControl`, so a governing rule without one is necessarily
user-supplied.) -/
theorem c9_missing_cache_control_shadows (outputPath : String) (tree : Tree)
    (assets : Option AssetsArgs) (f : FileEntry)
    (hr : readable (enumNoFollow tree) = true)
    (hn : ((enumNoFollow tree).map (fun e => e.path)).Nodup)
    (hf : f ∈ enumNoFollow tree)
    (hu : (lastMatch (rulebook assets) f.path).map (fun fo => fo.cacheControl)
      = some none) :
    ruleMatches catchAllRule f.path = true ∧
    catchAllRule.cacheControl.isSome = true ∧
    ∃ plan, uploadAssets outputPath tree assets = .ok plan ∧
      (∃ r ∈ plan, r.key = f.path) ∧
      ∀ r ∈ plan, r.key = f.path → r.cacheControl = none := by
  have hexist : ∀ e ∈ enumNoFollow tree, e.content.isSome := by
    rw [readable, List.all_eq_true] at hr
    exact hr
  refine ⟨rfl, rfl,
    planSpec outputPath ((rulebook assets).reverse) (enumNoFollow tree) [],
    processRules_ok _ _ _ _ hexist, ?_, ?_⟩
  · have hk : f.path ∈ (planSpec outputPath ((rulebook assets).reverse)
        (enumNoFollow tree) []).map (fun r => r.key) := by
      rw [planSpec_keys, mem_keysSpec]
      exact ⟨⟨f, hf, rfl⟩, by simp, catchAllRule, catchAll_mem_rev assets, rfl⟩
    obtain ⟨r, hrp, hrk⟩ := List.mem_map.mp hk
    exact ⟨r, hrp, hrk⟩
  · intro r hrp hrk
    obtain ⟨_, fo, hfind, e2, he2, hpath, hrec⟩ :=
      mem_planSpec outputPath _ _ _ r hrp
    rw [hrk] at hfind
    have hlast : lastMatch (rulebook assets) f.path = some fo := hfind
    rw [hlast] at hu
    have hcc : fo.cacheControl = none := Option.some.inj hu
    rw [hrec]
    exact hcc

/-- C9 witness: a user rule matching `.zip` files with no `cacheControl`
governs `bundle.zip`; its record carries no cache-control despite the
catch-all (which has one) also matching. -/
theorem c9_missing_cache_control_shadows_witness :
    ruleMatches catchAllRule c9Entry.path = true ∧
    catchAllRule.cacheControl.isSome = true ∧
    ∃ plan, uploadAssets ("out") [c9Entry] c9Assets = .ok plan ∧
      (∃ r ∈ plan, r.key = c9Entry.path) ∧
      ∀ r ∈ plan, r.key = c9Entry.path → r.cacheControl = none :=
  c9_missing_cache_control_shadows ("out") [c9Entry] c9Assets c9Entry
    (by decide) (by decide) (by decide) (by decide)

/-- C8: planning is fail-fast and all-or-nothing — a missing output tree
root aborts with an error; an unreadable enumerated file aborts the whole
plan with an error; and whenever a plan is produced it covers every
enumerated file exactly once. -/
theorem c8_fail_fast (outputPath : String) (tree : Tree)
    (assets : Option AssetsArgs)
    (hn : ((enumNoFollow tree).map (fun e => e.path)).Nodup) :
    (∃ msg, planPipeline outputPath none assets = .error msg) ∧
    (∀ e ∈ enumNoFollow tree, e.content = none →
      ∃ msg, planPipeline outputPath (some tree) assets = .error msg) ∧
    ∀ plan, planPipeline outputPath (some tree) assets = .ok plan →
      (plan.map (fun r => r.key)).Nodup ∧
      ∀ p, p ∈ plan.map (fun r => r.key) ↔
        p ∈ (enumNoFollow tree).map (fun e => e.path) := by
  refine ⟨⟨"No build output found at " ++ outputPath, rfl⟩, ?_, ?_⟩
  · intro e he hnone
    rcases hres : planPipeline outputPath (some tree) assets with msg | plan
    · exact ⟨msg, rfl⟩
    · have hres2 : processRules outputPath ((rulebook assets).reverse)
          (enumNoFollow tree) [] = Except.ok plan := hres
      have hsome := processRules_ok_isSome outputPath _ _ _ plan hn hres2 e he
        (by simp) ⟨catchAllRule, catchAll_mem_rev assets, rfl⟩
      rw [hnone] at hsome
      simp at hsome
  · intro plan hok
    have hok2 : processRules outputPath ((rulebook assets).reverse)
        (enumNoFollow tree) [] = Except.ok plan := hok
    have hread : ∀ e ∈ enumNoFollow tree, e.content.isSome :=
      fun e he => processRules_ok_isSome outputPath _ _ _ plan hn hok2 e he
        (by simp) ⟨catchAllRule, catchAll_mem_rev assets, rfl⟩
    have hspec := processRules_ok outputPath ((rulebook assets).reverse)
      (enumNoFollow tree) [] hread
    rw [hspec] at hok2
    obtain rfl := (Except.ok.inj hok2).symm
    refine ⟨by rw [planSpec_keys]; exact nodup_keysSpec _ _ _ hn, ?_⟩
    intro p
    rw [planSpec_keys, mem_keysSpec]
    constructor
    · rintro ⟨⟨e, he, rfl⟩, _, _⟩
      exact List.mem_map.mpr ⟨e, he, rfl⟩
    · intro hp
      obtain ⟨e, he, rfl⟩ := List.mem_map.mp hp
      exact ⟨⟨e, he, rfl⟩, by simp, catchAllRule, catchAll_mem_rev assets, rfl⟩

/-- C8 witness: the fail-fast theorem applied to a concrete tree whose
second file is unreadable. -/
theorem c8_fail_fast_witness :
    (∃ msg, planPipeline ("out") none none = .error msg) ∧
    (∀ e ∈ enumNoFollow
        [⟨"ok.txt", some [1], false⟩, ⟨"broken.txt", none, false⟩],
      e.content = none →
      ∃ msg, planPipeline ("out")
        (some [⟨"ok.txt", some [1], false⟩, ⟨"broken.txt", none, false⟩])
        none = .error msg) ∧
    ∀ plan, planPipeline ("out")
        (some [⟨"ok.txt", some [1], false⟩, ⟨"broken.txt", none, false⟩])
        none = .ok plan →
      (plan.map (fun r => r.key)).Nodup ∧
      ∀ p, p ∈ plan.map (fun r => r.key) ↔
        p ∈ (enumNoFollow
          [⟨"ok.txt", some [1], false⟩, ⟨"broken.txt", none, false⟩]).map
          (fun e => e.path) :=
  c8_fail_fast ("out")
    [⟨"ok.txt", some [1], false⟩, ⟨"broken.txt", none, false⟩] none
    (by decide)

/-- C5: on a readable tree the invalidation planner always returns (it
never throws), and it returns no request exactly when the invalidation
argument is the literal `false` or an explicit empty path list; in every
other case — the argument omitted entirely included — a request is
produced. -/
theorem c5_no_request_iff (tree : Tree) (inv : InvalidationSetting)
    (hr : readable (enumFollow tree) = true) :
    (∃ o, createDistributionInvalidation tree inv = .ok o) ∧
    (createDistributionInvalidation tree inv = .ok none ↔
      inv = .disabled ∨
        ∃ c, inv = .config c ∧ c.paths = some (.list [])) := by
  have hread := readAll_ok (enumFollow tree) hr
  rcases inv with _ | _ | c
  · have heq : createDistributionInvalidation tree .omitted =
        .ok (some ⟨["/*"], md5Hex (joinContents (enumFollow tree)), false⟩) := by
      simp [createDistributionInvalidation, settingArgs, hread]
    refine ⟨⟨_, heq⟩, ?_⟩
    rw [heq]
    simp
  · refine ⟨⟨none, rfl⟩, ?_⟩
    simp [createDistributionInvalidation, settingArgs]
  · rcases hp : c.paths with _ | pa
    · have heq : createDistributionInvalidation tree (.config c) =
          .ok (some ⟨["/*"], md5Hex (joinContents (enumFollow tree)),
            c.wait.getD false⟩) := by
        simp [createDistributionInvalidation, settingArgs, hp, hread]
      refine ⟨⟨_, heq⟩, ?_⟩
      rw [heq]
      simp [hp]
    · rcases pa with _ | ps
      · have heq : createDistributionInvalidation tree (.config c) =
            .ok (some ⟨["/*"], md5Hex (joinContents (enumFollow tree)),
              c.wait.getD false⟩) := by
          simp [createDistributionInvalidation, settingArgs, hp, hread]
        refine ⟨⟨_, heq⟩, ?_⟩
        rw [heq]
        simp [hp]
      · rcases ps with _ | ⟨q, qs⟩
        · have heq : createDistributionInvalidation tree (.config c) =
              .ok none := by
            simp [createDistributionInvalidation, settingArgs, hp]
          refine ⟨⟨none, heq⟩, ?_⟩
          rw [heq]
          simp [hp]
        · have heq : createDistributionInvalidation tree (.config c) =
              .ok (some ⟨q :: qs, md5Hex (joinContents (enumFollow tree)),
                c.wait.getD false⟩) := by
            simp [createDistributionInvalidation, settingArgs, hp, hread]
          refine ⟨⟨_, heq⟩, ?_⟩
          rw [heq]
          simp [hp]

/-- C5 witness: the characterization applied to a concrete one-file tree
with the literal `false`. -/
theorem c5_no_request_iff_witness :
    (∃ o, createDistributionInvalidation [⟨"a.txt", some [9], false⟩]
      .disabled = .ok o) ∧
    (createDistributionInvalidation [⟨"a.txt", some [9], false⟩] .disabled
        = .ok none ↔
      InvalidationSetting.disabled = .disabled ∨
        ∃ c, InvalidationSetting.disabled = .config c ∧
          c.paths = some (.list [])) :=
  c5_no_request_iff [⟨"a.txt", some [9], false⟩] .disabled (by decide)

/-- C6: for an enabled invalidation argument (an options object, or the
argument omitted, which behaves as the empty options object) whose `paths`
is omitted or `"all"`, the produced request invalidates exactly `["/*"]`,
and an omitted `wait` defaults to `false`. -/
theorem c6_all_paths_and_wait_defaults (tree : Tree)
    (inv : InvalidationSetting) (c : InvalidationArgs)
    (hr : readable (enumFollow tree) = true)
    (hc : settingArgs inv = some c)
    (hp : c.paths = none ∨ c.paths = some .all) :
    ∃ req, createDistributionInvalidation tree inv = .ok (some req) ∧
      req.paths = ["/*"] ∧ req.wait = c.wait.getD false ∧
      (c.wait = none → req.wait = false) := by
  have hread := readAll_ok (enumFollow tree) hr
  refine ⟨⟨["/*"], md5Hex (joinContents (enumFollow tree)),
    c.wait.getD false⟩, ?_, rfl, rfl, ?_⟩
  · rcases inv with _ | _ | c2
    · obtain rfl : ({} : InvalidationArgs) = c := Option.some.inj hc
      simp [createDistributionInvalidation, settingArgs, hread]
    · exact absurd hc (by simp [settingArgs])
    · obtain rfl : c2 = c := Option.some.inj hc
      rcases hp with hp | hp
      · simp [createDistributionInvalidation, settingArgs, hp, hread]
      · simp [createDistributionInvalidation, settingArgs, hp, hread]
  · intro hw
    simp [hw]

/-- C6 witness: the defaults applied to an enabled options object that sets
neither `wait` nor `paths`. -/
theorem c6_all_paths_and_wait_defaults_witness :
    ∃ req, createDistributionInvalidation [⟨"a.txt", some [9], false⟩]
        (.config {}) = .ok (some req) ∧
      req.paths = ["/*"] ∧
      req.wait = (({} : InvalidationArgs).wait).getD false ∧
      (({} : InvalidationArgs).wait = none → req.wait = false) :=
  c6_all_paths_and_wait_defaults [⟨"a.txt", some [9], false⟩] (.config {}) {}
    (by decide) rfl (Or.inl rfl)

/-- C7: a filename whose looked-up extension is not in the static table
resolves to `application/octet-stream` with no charset suffix, whatever
text encoding is passed; resolution is total, so it never fails. -/
theorem c7_unknown_extension_fallback (filename : String)
    (h : extensionData filename = none) :
    ∀ textEncoding, getContentType filename textEncoding =
      "application/octet-stream" := by
  intro te
  simp [getContentType, h]

/-- C7 witness: `.xyz` is not in the table and resolves to the fallback. -/
theorem c7_unknown_extension_fallback_witness :
    extensionData ("data.xyz") = none ∧
    getContentType ("data.xyz") ("utf-8") = "application/octet-stream" :=
  ⟨by decide, c7_unknown_extension_fallback ("data.xyz") (by decide) ("utf-8")⟩

/-- C3 (code-bug exhibit): the content type the plan records for
`index.html` is `text/html;charset=UTF-8` for EVERY configured
`assets.textEncoding` — the configuration, `"none"` included, is ignored,
because `uploadAssets` passes the literal `"UTF-8"` to `getContentType`
(line 533) instead of the configured encoding its own option documentation
promises to honour. -/
theorem c3_configured_text_encoding_ignored (textEncoding : String) :
    (uploadAssets ("out") [⟨"index.html", some [60], false⟩]
      (some { textEncoding := some textEncoding })).map
      (List.map (fun r => r.contentType)) =
    .ok ["text/html;charset=UTF-8"] := rfl

set_option maxRecDepth 100000 in
/-- C2 counterexample: two trees holding byte-identical contents at
identical relative paths (one is a permutation of the other) but enumerated
in different orders receive different version tokens: the digest consumes
bytes in enumeration order and the engine imposes no order of its own. -/
theorem c2_order_dependence_counterexample :
    List.Perm
      [(⟨"a.txt", some [0], false⟩ : FileEntry), ⟨"b.txt", some [1], false⟩]
      [⟨"b.txt", some [1], false⟩, ⟨"a.txt", some [0], false⟩] ∧
    (createDistributionInvalidation
      [⟨"a.txt", some [0], false⟩, ⟨"b.txt", some [1], false⟩] .omitted).map
      (Option.map (fun r => r.version)) =
      .ok (some ("441077cc9e57554dd476bdfb8b8b8102")) ∧
    (createDistributionInvalidation
      [⟨"b.txt", some [1], false⟩, ⟨"a.txt", some [0], false⟩] .omitted).map
      (Option.map (fun r => r.version)) =
      .ok (some ("25daad3d9e60b45043a70c4ab7d3b1c6")) ∧
    ("441077cc9e57554dd476bdfb8b8b8102" : String) ≠
      "25daad3d9e60b45043a70c4ab7d3b1c6" := by
  refine ⟨List.Perm.swap _ _ _, rfl, rfl, by decide⟩

/-- C2 amended: the version token is a pure function of the sequence of
file byte contents in enumeration order — relative paths and metadata do
not enter the digest — but no ordering is imposed by the engine itself, so
equal tokens are guaranteed only for trees whose enumerations carry equal
content sequences, not for equal trees enumerated differently. -/
theorem c2_amended_token_of_content_sequence (inv : InvalidationSetting)
    (t1 t2 : Tree)
    (hr : readable (enumFollow t1) = true)
    (h : (enumFollow t1).map (fun e => e.content) =
      (enumFollow t2).map (fun e => e.content)) :
    createDistributionInvalidation t1 inv =
      createDistributionInvalidation t2 inv := by
  have hr2 : readable (enumFollow t2) = true := by
    rw [readable, List.all_eq_true] at hr ⊢
    intro e he
    have hmem : e.content ∈ (enumFollow t2).map (fun e => e.content) :=
      List.mem_map.mpr ⟨e, he, rfl⟩
    rw [← h] at hmem
    obtain ⟨e1, he1, heq⟩ := List.mem_map.mp hmem
    rw [← heq]
    exact hr e1 he1
  have hmm : ∀ t : Tree, t.map (fun e => e.content.getD []) =
      (t.map (fun e => e.content)).map (fun o => o.getD []) := by
    intro t
    rw [List.map_map]
    rfl
  have hj : joinContents (enumFollow t1) = joinContents (enumFollow t2) := by
    unfold joinContents
    rw [hmm, hmm, h]
  unfold createDistributionInvalidation
  rw [readAll_ok _ hr, readAll_ok _ hr2, hj]

/-- C2 amended witness: a tree whose single file is renamed and moved
behind a symlinked directory keeps the same version token, since only the
content sequence enters the digest. -/
theorem c2_amended_token_of_content_sequence_witness :
    createDistributionInvalidation [⟨"a.txt", some [7], false⟩] .omitted =
      createDistributionInvalidation [⟨"linked/renamed.bin", some [7], true⟩]
        .omitted :=
  c2_amended_token_of_content_sequence .omitted
    [⟨"a.txt", some [7], false⟩] [⟨"linked/renamed.bin", some [7], true⟩]
    (by decide) (by decide)

/-- C10: a readable file reachable only through a symlinked directory
contributes its bytes to the invalidation digest (the digest enumeration
passes `follow: true`) yet yields no record in the sync plan (the upload
enumeration does not follow): no plan record carries its path as key. -/
theorem c10_follow_only_in_digest_not_in_plan (outputPath : String)
    (tree : Tree) (assets : Option AssetsArgs) (f : FileEntry) (c : Bytes)
    (hn : (tree.map (fun e => e.path)).Nodup)
    (hr : readable (enumFollow tree) = true)
    (hf : f ∈ tree) (hfo : f.followOnly = true) (hc : f.content = some c) :
    (∃ req, createDistributionInvalidation tree .omitted = .ok (some req) ∧
      req.version = md5Hex (joinContents (enumFollow tree))) ∧
    (∃ pre post, joinContents (enumFollow tree) = pre ++ c ++ post) ∧
    ∀ plan, uploadAssets outputPath tree assets = .ok plan →
      ∀ r ∈ plan, r.key ≠ f.path := by
  refine ⟨?_, ?_, ?_⟩
  · exact ⟨⟨["/*"], md5Hex (joinContents (enumFollow tree)), false⟩,
      by simp [createDistributionInvalidation, settingArgs,
        readAll_ok _ hr], rfl⟩
  · obtain ⟨s, t, hst⟩ := List.append_of_mem hf
    refine ⟨(s.map (fun e => e.content.getD [])).flatten,
      (t.map (fun e => e.content.getD [])).flatten, ?_⟩
    show joinContents tree = _
    rw [hst]
    unfold joinContents
    rw [List.map_append, List.flatten_append, List.map_cons,
      List.flatten_cons, hc]
    simp [List.append_assoc]
  · intro plan hok r hrp hkey
    have hok2 : processRules outputPath ((rulebook assets).reverse)
        (enumNoFollow tree) [] = Except.ok plan := hok
    have hnf : ((enumNoFollow tree).map (fun e => e.path)).Nodup :=
      hn.sublist (List.Sublist.map _ (List.filter_sublist tree))
    have hread : ∀ e ∈ enumNoFollow tree, e.content.isSome :=
      fun e he => processRules_ok_isSome outputPath _ _ _ plan hnf hok2 e he
        (by simp) ⟨catchAllRule, catchAll_mem_rev assets, rfl⟩
    have hspec := processRules_ok outputPath ((rulebook assets).reverse)
      (enumNoFollow tree) [] hread
    rw [hspec] at hok2
    obtain rfl := (Except.ok.inj hok2).symm
    obtain ⟨_, fo, hfind, e2, he2, hpath, _⟩ :=
      mem_planSpec outputPath _ _ _ r hrp
    have he2f := (List.mem_filter.mp he2).2
    have he2t := List.mem_of_mem_filter he2
    have heq : e2 = f :=
      List.inj_on_of_nodup_map hn he2t hf (by rw [hpath, hkey])
    rw [heq, hfo] at he2f
    simp at he2f

/-- C10 witness: the divergence applied to a tree with one directly
enumerated file and one file reachable only through a symlinked
directory. -/
theorem c10_follow_only_in_digest_not_in_plan_witness :
    (∃ req, createDistributionInvalidation
        [⟨"visible.txt", some [1], false⟩,
         ⟨"linked/hidden.txt", some [2, 3], true⟩] .omitted =
        .ok (some req) ∧
      req.version = md5Hex (joinContents (enumFollow
        [⟨"visible.txt", some [1], false⟩,
         ⟨"linked/hidden.txt", some [2, 3], true⟩]))) ∧
    (∃ pre post, joinContents (enumFollow
        [⟨"visible.txt", some [1], false⟩,
         ⟨"linked/hidden.txt", some [2, 3], true⟩]) =
      pre ++ [2, 3] ++ post) ∧
    ∀ plan, uploadAssets ("out")
        [⟨"visible.txt", some [1], false⟩,
         ⟨"linked/hidden.txt", some [2, 3], true⟩] none = .ok plan →
      ∀ r ∈ plan, r.key ≠
        FileEntry.path ⟨"linked/hidden.txt", some [2, 3], true⟩ :=
  c10_follow_only_in_digest_not_in_plan ("out")
    [⟨"visible.txt", some [1], false⟩,
     ⟨"linked/hidden.txt", some [2, 3], true⟩] none
    ⟨"linked/hidden.txt", some [2, 3], true⟩ [2, 3]
    (by decide) (by decide) (by decide) (by decide) (by decide)

end StaticSite
